import Mathlib

/-!
# Verification of the rs-zephyr-toolkit marshalling layer

Shallow embedding of the guest-side SDK of the Zephyr toolkit:
the `ZephyrVal` typed-column codec (`zephyr-common/src/lib.rs`), the
status-code protocol (`ZephyrStatus` / `SdkError::express_from_status`),
the database gateway push trace and `TableQueryWrapper`
(`zephyr-sdk/src/database.rs`), `TypeWrap` byte accessors, and the
ledger-close meta reader (`zephyr-sdk/src/ledger_meta.rs`).

Bytes are modelled as `Nat` (with well-formedness bounds `< 256`),
machine integers as `Int`/`Nat` with explicit `% 2^w` where Rust
overflow/truncation semantics matter, and floats by their IEEE-754 bit
pattern (serialization only moves the bits).  Panicking Rust paths are
modelled as `Option`/`Except` with `none` standing for the panic.
-/

deriving instance DecidableEq for Except

namespace Zephyr

/-! ## Little/big-endian byte strings

`bincode` (the compact binary serialization used by the SDK, default
configuration) writes fixed-width integers little-endian; the
`TypeWrap::to_i128` / `to_u64` accessors use `from_be_bytes`.  -/

/-- Little-endian bytes (`n` of them) of the value `m`, i.e. its low
`8*n` bits as produced by Rust's `to_le_bytes`. -/
def natToLEBytes : Nat → Nat → List Nat
  | 0, _ => []
  | n + 1, m => m % 256 :: natToLEBytes n (m / 256)

/-- Little-endian interpretation of a byte string. -/
def leBytesToNat : List Nat → Nat
  | [] => 0
  | b :: l => b + 256 * leBytesToNat l

/-- Big-endian interpretation of a byte string (Rust `from_be_bytes`). -/
def beBytesToNat (l : List Nat) : Nat :=
  l.foldl (fun acc b => acc * 256 + b) 0

/-- Reinterpret the low `w` bits `m` as a two's-complement signed value. -/
def toSigned (w : Nat) (m : Nat) : Int :=
  if m < 2 ^ (w - 1) then (m : Int) else (m : Int) - 2 ^ w

/-- Rust `as` cast of an integer value into a `w`-bit target:
truncate to the low `w` bits, then reinterpret per the target's
signedness. -/
def intCast (w : Nat) (signed : Bool) (v : Int) : Int :=
  let m := (v % (2 ^ w : Int)).toNat
  if signed then toSigned w m else (m : Int)

theorem length_natToLEBytes (n m : Nat) : (natToLEBytes n m).length = n := by
  induction n generalizing m with
  | zero => rfl
  | succ k ih => simp [natToLEBytes, ih]

theorem natToLEBytes_lt (n m : Nat) : ∀ b ∈ natToLEBytes n m, b < 256 := by
  induction n generalizing m with
  | zero => intro b hb; simp [natToLEBytes] at hb
  | succ k ih =>
    intro b hb
    simp only [natToLEBytes, List.mem_cons] at hb
    rcases hb with h | h
    · subst h; exact Nat.mod_lt _ (by norm_num)
    · exact ih _ b h

theorem leBytesToNat_natToLEBytes (n m : Nat) (h : m < 2 ^ (8 * n)) :
    leBytesToNat (natToLEBytes n m) = m := by
  induction n generalizing m with
  | zero =>
    simp only [Nat.mul_zero, pow_zero, Nat.lt_one_iff] at h
    simp [natToLEBytes, leBytesToNat, h]
  | succ k ih =>
    have hdiv : m / 256 < 2 ^ (8 * k) := by
      have h256 : (256 : Nat) = 2 ^ 8 := by norm_num
      rw [h256, Nat.div_lt_iff_lt_mul (by positivity), ← pow_add]
      have : 8 * k + 8 = 8 * (k + 1) := by ring
      rw [this]; exact h
    simp only [natToLEBytes, leBytesToNat, ih (m / 256) hdiv]
    omega

theorem leBytesToNat_lt (l : List Nat) (h : ∀ b ∈ l, b < 256) :
    leBytesToNat l < 2 ^ (8 * l.length) := by
  induction l with
  | nil => simp [leBytesToNat]
  | cons b t ih =>
    have hb : b < 256 := h b (List.mem_cons_self b t)
    have ht := ih (fun x hx => h x (List.mem_cons_of_mem b hx))
    simp only [leBytesToNat, List.length_cons]
    have : 8 * (t.length + 1) = 8 * t.length + 8 := by ring
    rw [this, pow_add]
    have h8 : (2 : Nat) ^ 8 = 256 := by norm_num
    nlinarith [ht, hb]

/-- Signed round trip: truncating a `w`-bit-representable integer and
reading it back two's-complement recovers the value. -/
theorem toSigned_intTrunc (w : Nat) (hw : 1 ≤ w) (v : Int)
    (hlo : -(2 ^ (w - 1) : Int) ≤ v) (hhi : v < 2 ^ (w - 1)) :
    toSigned w ((v % (2 ^ w : Int)).toNat) = v := by
  obtain ⟨w', rfl⟩ : ∃ w', w = w' + 1 := ⟨w - 1, by omega⟩
  simp only [Nat.add_sub_cancel] at hlo hhi
  have hA : (0 : Int) < 2 ^ w' := by positivity
  have hpow : (2 : Int) ^ (w' + 1) = 2 ^ w' + 2 ^ w' := by ring
  unfold toSigned
  simp only [Nat.add_sub_cancel]
  rcases le_or_lt 0 v with hv | hv
  · have hr : v % (2 ^ (w' + 1) : Int) = v :=
      Int.emod_eq_of_lt hv (by omega)
    rw [hr]
    have hm : (v.toNat : Int) = v := Int.toNat_of_nonneg hv
    have hlt : v.toNat < 2 ^ w' := by
      have h2 : (v.toNat : Int) < ((2 ^ w' : Nat) : Int) := by push_cast; omega
      exact_mod_cast h2
    rw [if_pos hlt, hm]
  · have heq : v % (2 ^ (w' + 1) : Int) = (v + 2 ^ (w' + 1) * 1) % (2 ^ (w' + 1)) := by
      rw [Int.add_mul_emod_self_left]
    have hr : v % (2 ^ (w' + 1) : Int) = v + 2 ^ (w' + 1) := by
      rw [heq, mul_one]
      exact Int.emod_eq_of_lt (by omega) (by omega)
    rw [hr]
    have hm : (((v + 2 ^ (w' + 1)).toNat : Int)) = v + 2 ^ (w' + 1) :=
      Int.toNat_of_nonneg (by omega)
    have hge : ¬ ((v + 2 ^ (w' + 1)).toNat < 2 ^ w') := by
      intro hcon
      have h2 : (((v + 2 ^ (w' + 1)).toNat : Int)) < ((2 ^ w' : Nat) : Int) := by
        exact_mod_cast hcon
      push_cast at h2
      omega
    rw [if_neg hge, hm]
    omega

/-! ## UTF-8 validity

Rust's `String` deserialization (`String::from_utf8` inside serde's
`bincode` path) rejects byte strings that are not well-formed UTF-8.
`utf8Valid` is the standard well-formedness table (RFC 3629). -/

/-- A UTF-8 continuation byte. -/
def utf8Cont (b : Nat) : Bool := decide (0x80 ≤ b ∧ b ≤ 0xBF)

/-- Well-formed UTF-8, including the overlong and surrogate exclusions
implemented by Rust's `str` validation. -/
def utf8Valid : List Nat → Bool
  | [] => true
  | b :: l =>
    if b ≤ 0x7F then utf8Valid l
    else if 0xC2 ≤ b ∧ b ≤ 0xDF then
      match l with
      | c :: l' => utf8Cont c && utf8Valid l'
      | [] => false
    else if 0xE0 ≤ b ∧ b ≤ 0xEF then
      match l with
      | c :: d :: l' =>
        (if b = 0xE0 then decide (0xA0 ≤ c ∧ c ≤ 0xBF)
         else if b = 0xED then decide (0x80 ≤ c ∧ c ≤ 0x9F)
         else utf8Cont c) && utf8Cont d && utf8Valid l'
      | _ => false
    else if 0xF0 ≤ b ∧ b ≤ 0xF4 then
      match l with
      | c :: d :: e :: l' =>
        (if b = 0xF0 then decide (0x90 ≤ c ∧ c ≤ 0xBF)
         else if b = 0xF4 then decide (0x80 ≤ c ∧ c ≤ 0x8F)
         else utf8Cont c) && utf8Cont d && utf8Cont e && utf8Valid l'
      | _ => false
    else false

/-! ## `ZephyrVal` (`zephyr-common/src/lib.rs`, lines 79–90)

The typed column value.  Numeric payloads are `Int`/`Nat`; the float
variants carry their IEEE-754 bit pattern (serialization moves only the
bits, so the bit pattern is the faithful shallow image); `String`
carries its UTF-8 bytes and `Bytes` raw bytes, each byte a `Nat < 256`. -/

inductive ZephyrVal
  | I128 (v : Int)
  | I64 (v : Int)
  | U64 (v : Nat)
  | F64 (bits : Nat)
  | U32 (v : Nat)
  | I32 (v : Int)
  | F32 (bits : Nat)
  | String (s : List Nat)
  | Bytes (b : List Nat)
  deriving DecidableEq, Repr

/-- Range/representation well-formedness of the shallow image: each
variant's payload is representable in the corresponding Rust type.
(`String` additionally satisfies the `String` type's UTF-8 invariant.) -/
def ZephyrVal.wf : ZephyrVal → Bool
  | .I128 v => decide (-(2 ^ 127) ≤ v ∧ v < 2 ^ 127)
  | .I64 v => decide (-(2 ^ 63) ≤ v ∧ v < 2 ^ 63)
  | .U64 v => decide (v < 2 ^ 64)
  | .F64 b => decide (b < 2 ^ 64)
  | .U32 v => decide (v < 2 ^ 32)
  | .I32 v => decide (-(2 ^ 31) ≤ v ∧ v < 2 ^ 31)
  | .F32 b => decide (b < 2 ^ 32)
  | .String s => s.all (fun b => decide (b < 256)) && utf8Valid s
      && decide (s.length < 2 ^ 64)
  | .Bytes bs => bs.all (fun b => decide (b < 256)) && decide (bs.length < 2 ^ 64)

/-! ## bincode codec for `ZephyrVal`

`bincode::serialize`/`bincode::deserialize` with the default (legacy)
configuration: fixed-width little-endian integers, `u32` enum variant
tags, `u64` lengths for `String`/`Vec<u8>` payloads.  A signed field of
`w` bits is written as the little-endian bytes of its two's-complement
pattern `(v % 2^w).toNat`.  Deserialization is modelled as a consuming
parser returning the decoded value and the unread suffix; `none` is a
decode error. -/

def bincodeSerializeZephyrVal : ZephyrVal → List Nat
  | .I128 v => natToLEBytes 4 0 ++ natToLEBytes 16 ((v % (2 ^ 128 : Int)).toNat)
  | .I64 v => natToLEBytes 4 1 ++ natToLEBytes 8 ((v % (2 ^ 64 : Int)).toNat)
  | .U64 v => natToLEBytes 4 2 ++ natToLEBytes 8 v
  | .F64 b => natToLEBytes 4 3 ++ natToLEBytes 8 b
  | .U32 v => natToLEBytes 4 4 ++ natToLEBytes 4 v
  | .I32 v => natToLEBytes 4 5 ++ natToLEBytes 4 ((v % (2 ^ 32 : Int)).toNat)
  | .F32 b => natToLEBytes 4 6 ++ natToLEBytes 4 b
  | .String s => natToLEBytes 4 7 ++ (natToLEBytes 8 s.length ++ s)
  | .Bytes bs => natToLEBytes 4 8 ++ (natToLEBytes 8 bs.length ++ bs)

/-- Read a fixed-width little-endian unsigned integer. -/
def readLE (n : Nat) (l : List Nat) : Option (Nat × List Nat) :=
  if n ≤ l.length then some (leBytesToNat (l.take n), l.drop n) else none

/-- Read `n` raw bytes. -/
def readBytes (n : Nat) (l : List Nat) : Option (List Nat × List Nat) :=
  if n ≤ l.length then some (l.take n, l.drop n) else none

def bincodeDeserializeZephyrVal (l : List Nat) : Option (ZephyrVal × List Nat) :=
  match readLE 4 l with
  | none => none
  | some (tag, r) =>
    match tag with
    | 0 => match readLE 16 r with
           | some (m, r') => some (.I128 (toSigned 128 m), r')
           | none => none
    | 1 => match readLE 8 r with
           | some (m, r') => some (.I64 (toSigned 64 m), r')
           | none => none
    | 2 => match readLE 8 r with
           | some (m, r') => some (.U64 m, r')
           | none => none
    | 3 => match readLE 8 r with
           | some (m, r') => some (.F64 m, r')
           | none => none
    | 4 => match readLE 4 r with
           | some (m, r') => some (.U32 m, r')
           | none => none
    | 5 => match readLE 4 r with
           | some (m, r') => some (.I32 (toSigned 32 m), r')
           | none => none
    | 6 => match readLE 4 r with
           | some (m, r') => some (.F32 m, r')
           | none => none
    | 7 => match readLE 8 r with
           | some (len, r') =>
             match readBytes len r' with
             | some (s, r2) => if utf8Valid s then some (.String s, r2) else none
             | none => none
           | none => none
    | 8 => match readLE 8 r with
           | some (len, r') =>
             match readBytes len r' with
             | some (bs, r2) => some (.Bytes bs, r2)
             | none => none
           | none => none
    | _ => none

theorem readLE_append (n m : Nat) (rest : List Nat) (h : m < 2 ^ (8 * n)) :
    readLE n (natToLEBytes n m ++ rest) = some (m, rest) := by
  have hlen : (natToLEBytes n m).length = n := length_natToLEBytes n m
  unfold readLE
  rw [if_pos (by simp [hlen]),
    List.take_left' hlen, List.drop_left' hlen,
    leBytesToNat_natToLEBytes n m h]

theorem readBytes_append (s rest : List Nat) :
    readBytes s.length (s ++ rest) = some (s, rest) := by
  unfold readBytes
  rw [if_pos (by simp), List.take_left' rfl, List.drop_left' rfl]

theorem readLE_all (n m : Nat) (h : m < 2 ^ (8 * n)) :
    readLE n (natToLEBytes n m) = some (m, []) := by
  have h2 := readLE_append n m [] h
  rwa [List.append_nil] at h2

theorem readBytes_all (s : List Nat) : readBytes s.length s = some (s, []) := by
  have h2 := readBytes_append s []
  rwa [List.append_nil] at h2

/-- The truncated pattern of a signed value fits in `w` bits. -/
theorem intTrunc_lt (w : Nat) (v : Int) :
    (v % ((2 : Int) ^ w)).toNat < 2 ^ w := by
  have hpos : (0 : Int) < 2 ^ w := by positivity
  have h1 := Int.emod_nonneg v (ne_of_gt hpos)
  have h2 := Int.emod_lt_of_pos v hpos
  have hc : ((2 ^ w : Nat) : Int) = (2 : Int) ^ w := by push_cast; ring
  omega

theorem zephyrVal_roundtrip (v : ZephyrVal) (h : v.wf = true) :
    bincodeDeserializeZephyrVal (bincodeSerializeZephyrVal v) = some (v, []) := by
  cases v with
  | I128 v =>
    simp only [ZephyrVal.wf, decide_eq_true_eq] at h
    have hm : ((v % (2 ^ 128 : Int)).toNat) < 2 ^ (8 * 16) := by
      simpa using intTrunc_lt 128 v
    simp only [bincodeSerializeZephyrVal, bincodeDeserializeZephyrVal,
      readLE_append 4 0 _ (by norm_num), readLE_all 16 _ hm]
    rw [toSigned_intTrunc 128 (by norm_num) v (by simpa using h.1) (by simpa using h.2)]
  | I64 v =>
    simp only [ZephyrVal.wf, decide_eq_true_eq] at h
    have hm : ((v % (2 ^ 64 : Int)).toNat) < 2 ^ (8 * 8) := by
      simpa using intTrunc_lt 64 v
    simp only [bincodeSerializeZephyrVal, bincodeDeserializeZephyrVal,
      readLE_append 4 1 _ (by norm_num), readLE_all 8 _ hm]
    rw [toSigned_intTrunc 64 (by norm_num) v (by simpa using h.1) (by simpa using h.2)]
  | U64 v =>
    simp only [ZephyrVal.wf, decide_eq_true_eq] at h
    have hm : v < 2 ^ (8 * 8) := by simpa using h
    simp only [bincodeSerializeZephyrVal, bincodeDeserializeZephyrVal,
      readLE_append 4 2 _ (by norm_num), readLE_all 8 _ hm]
  | F64 b =>
    simp only [ZephyrVal.wf, decide_eq_true_eq] at h
    have hm : b < 2 ^ (8 * 8) := by simpa using h
    simp only [bincodeSerializeZephyrVal, bincodeDeserializeZephyrVal,
      readLE_append 4 3 _ (by norm_num), readLE_all 8 _ hm]
  | U32 v =>
    simp only [ZephyrVal.wf, decide_eq_true_eq] at h
    have hm : v < 2 ^ (8 * 4) := by simpa using h
    simp only [bincodeSerializeZephyrVal, bincodeDeserializeZephyrVal,
      readLE_append 4 4 _ (by norm_num), readLE_all 4 _ hm]
  | I32 v =>
    simp only [ZephyrVal.wf, decide_eq_true_eq] at h
    have hm : ((v % (2 ^ 32 : Int)).toNat) < 2 ^ (8 * 4) := by
      simpa using intTrunc_lt 32 v
    simp only [bincodeSerializeZephyrVal, bincodeDeserializeZephyrVal,
      readLE_append 4 5 _ (by norm_num), readLE_all 4 _ hm]
    rw [toSigned_intTrunc 32 (by norm_num) v (by simpa using h.1) (by simpa using h.2)]
  | F32 b =>
    simp only [ZephyrVal.wf, decide_eq_true_eq] at h
    have hm : b < 2 ^ (8 * 4) := by simpa using h
    simp only [bincodeSerializeZephyrVal, bincodeDeserializeZephyrVal,
      readLE_append 4 6 _ (by norm_num), readLE_all 4 _ hm]
  | String s =>
    simp only [ZephyrVal.wf, Bool.and_eq_true, decide_eq_true_eq] at h
    obtain ⟨⟨-, hutf⟩, hlen⟩ := h
    have hlen2 : s.length < 2 ^ (8 * 8) := by simpa using hlen
    simp only [bincodeSerializeZephyrVal, bincodeDeserializeZephyrVal,
      readLE_append 4 7 _ (by norm_num), readLE_append 8 s.length s hlen2,
      readBytes_all, hutf, if_true]
  | Bytes bs =>
    simp only [ZephyrVal.wf, Bool.and_eq_true, decide_eq_true_eq] at h
    have hlen2 : bs.length < 2 ^ (8 * 8) := by simpa using h.2
    simp only [bincodeSerializeZephyrVal, bincodeDeserializeZephyrVal,
      readLE_append 4 8 _ (by norm_num), readLE_append 8 bs.length bs hlen2,
      readBytes_all]

/-! ## Status-code protocol

`ZephyrStatus` and its `From<u32>` impl (`zephyr-common/src/lib.rs`
14–22 and 65–77) and `SdkError::express_from_status`
(`zephyr-sdk/src/lib.rs` 116–127). -/

inductive ZephyrStatus
  | Unknown
  | Success
  | DbWriteError
  | DbReadError
  | NoValOnStack
  | HostConfiguration
  deriving DecidableEq, Repr

/-- Translation of `impl From<u32> for ZephyrStatus`; `none` models the
`panic!("Unrecoverable status")` arm for any code outside 0–5. -/
def zephyrStatusFromU32 (value : Nat) : Option ZephyrStatus :=
  match value with
  | 0 => some .Unknown
  | 1 => some .Success
  | 2 => some .DbWriteError
  | 3 => some .DbReadError
  | 4 => some .NoValOnStack
  | 5 => some .HostConfiguration
  | _ => none

inductive SdkError
  | Conversion
  | DbRead
  | DbWrite
  | NoValOnStack
  | HostConfiguration
  | ReadOnUpdateAction
  | UpdateOnReadAction
  | Unknown
  deriving DecidableEq, Repr

/-- Translation of `SdkError::express_from_status(status: i64)`.  The
`status as u32` cast keeps the low 32 bits of the `i64`; `none` models
the panic propagated out of `ZephyrStatus::from`. -/
def express_from_status (status : Int) : Option (Except SdkError Unit) :=
  match zephyrStatusFromU32 ((status % (2 ^ 32 : Int)).toNat) with
  | some .Success => some (.ok ())
  | some .DbReadError => some (.error .DbRead)
  | some .DbWriteError => some (.error .DbWrite)
  | some .NoValOnStack => some (.error .NoValOnStack)
  | some .HostConfiguration => some (.error .HostConfiguration)
  | some .Unknown => some (.error .Unknown)
  | none => none

theorem zephyrStatusFromU32_ge_six (n : Nat) (h : 6 ≤ n) :
    zephyrStatusFromU32 n = none := by
  obtain ⟨m, rfl⟩ : ∃ m, n = m + 6 := ⟨n - 6, by omega⟩
  rfl

theorem small_int_trunc (code : Int) (h0 : 0 ≤ code) (h1 : code < 2 ^ 32) :
    ((code % (2 ^ 32 : Int)).toNat : Int) = code := by
  rw [Int.emod_eq_of_lt h0 h1, Int.toNat_of_nonneg h0]

/-! ## `TableRows` and its bincode decoding (`zephyr-sdk/src/database.rs`) -/

/-- Raw wrapped column bytes (`TypeWrap(pub Vec<u8>)`, database.rs 10–11). -/
structure TypeWrap where
  bytes : List Nat
  deriving DecidableEq, Repr

/-- One row of wrapped columns (database.rs 41–45). -/
structure TableRow where
  row : List TypeWrap
  deriving DecidableEq, Repr

/-- The collection returned by one database read (database.rs 27–31). -/
structure TableRows where
  rows : List TableRow
  deriving DecidableEq, Repr

/-- Parse a fixed number of items in sequence. -/
def readN {α : Type} (rd : List Nat → Option (α × List Nat)) :
    Nat → List Nat → Option (List α × List Nat)
  | 0, l => some ([], l)
  | n + 1, l =>
    match rd l with
    | some (a, r) =>
      match readN rd n r with
      | some (as2, r2) => some (a :: as2, r2)
      | none => none
    | none => none

/-- bincode decode of one `TypeWrap`: `u64` length then raw bytes. -/
def readTypeWrap (l : List Nat) : Option (TypeWrap × List Nat) :=
  match readLE 8 l with
  | some (len, r) =>
    match readBytes len r with
    | some (bs, r2) => some (⟨bs⟩, r2)
    | none => none
  | none => none

/-- bincode decode of one `TableRow`: `u64` count then that many wraps. -/
def readTableRow (l : List Nat) : Option (TableRow × List Nat) :=
  match readLE 8 l with
  | some (n, r) =>
    match readN readTypeWrap n r with
    | some (ws, r2) => some (⟨ws⟩, r2)
    | none => none
  | none => none

/-- Parse of `bincode::deserialize::<TableRows>` (the decode attempted at
database.rs 128): `u64` row count then that many rows.  `bincode`'s
slice deserializer does not reject trailing bytes, so the unread suffix
is returned alongside. -/
def bincodeDeserializeTableRows (l : List Nat) : Option (TableRows × List Nat) :=
  match readLE 8 l with
  | some (n, r) =>
    match readN readTableRow n r with
    | some (rs, r2) => some (⟨rs⟩, r2)
    | none => none
  | none => none

/-- The host-facing tail of `Database::read_table` (database.rs
116–136): translate the returned status (the `?` operator on
`express_from_status`), then attempt to deserialize the returned byte
buffer as `TableRows`; a failed deserialization is the recoverable
`SdkError::Conversion`.  The outer `none` models a panic inside the
status translation. -/
def read_table_from_host (status : Int) (buffer : List Nat) :
    Option (Except SdkError TableRows) :=
  match express_from_status status with
  | none => none
  | some (.error e) => some (.error e)
  | some (.ok ()) =>
    match bincodeDeserializeTableRows buffer with
    | some (t, _) => some (.ok t)
    | none => some (.error .Conversion)

/-! ## Conditions and the read-path push trace

`Database::read_table` (database.rs 73–136) marshals its arguments as a
sequence of `env_push_stack` words.  Names (table and columns) are
converted by `symbol::Symbol::try_from_bytes(..).unwrap().0 as i64` to
one `i64` word each; the `symbol` module is not among the sources, so
the conversion is abstracted as a function `sym` on name bytes.
Operand buffer addresses (`value.as_ptr()`) live in linear memory and
are abstracted as a function `addrOf` of the condition's position. -/

/-- A query condition (database.rs 33–38): the wire protocol supports
only column equality against a serialized operand. -/
inductive Condition
  | ColumnEqualTo (column : List Nat) (value : List Nat)
  deriving DecidableEq, Repr

def Condition.column : Condition → List Nat
  | .ColumnEqualTo c _ => c

def Condition.operand : Condition → List Nat
  | .ColumnEqualTo _ v => v

/-- The operator code pushed for a condition: the match at database.rs
93–95 sends `ColumnEqualTo` to operator `0` (equality). -/
def Condition.operatorCode : Condition → Int
  | .ColumnEqualTo _ _ => 0

/-- The `unsafe_helpers::push_head` trace (database.rs 50–57): table
word, column count, then one word per column. -/
def push_head (tableSym : Int) (colSyms : List Int) : List Int :=
  tableSym :: (colSyms.length : Int) :: colSyms

/-- Words pushed inside the per-condition loop (database.rs 92–105):
the column symbol and the operator code. -/
def condHeadWords (sym : List Nat → Int) (c : Condition) : List Int :=
  [sym c.column, c.operatorCode]

/-- Words pushed for the operand segment of the condition at position
`i` (database.rs 109–112): pointer then byte length. -/
def condArgWords (addrOf : Nat → Int) (p : Nat × Condition) : List Int :=
  [addrOf p.1, (p.2.operand.length : Int)]

/-- The condition block of the trace (database.rs 87–114): condition
count, per-condition (symbol, operator) words, operand segment count
(`args.len()`, equal to the condition count), then (pointer, length)
per operand. -/
def condPushes (sym : List Nat → Int) (addrOf : Nat → Int)
    (conds : List Condition) : List Int :=
  ((conds.length : Int) :: (conds.map (condHeadWords sym)).flatten)
    ++ ((conds.length : Int) :: ((conds.enum).map (condArgWords addrOf)).flatten)

/-- The full `env_push_stack` trace issued by `Database::read_table`
before the host read call. -/
def read_table_pushes (sym : List Nat → Int) (addrOf : Nat → Int)
    (tableName : List Nat) (columns : List (List Nat))
    (conditions : Option (List Condition)) : List Int :=
  push_head (sym tableName) (columns.map sym)
    ++ (match conditions with
        | none => []
        | some conds => condPushes sym addrOf conds)

theorem length_flatten_of_pair {α : Type} (f : α → List Int)
    (hf : ∀ a, (f a).length = 2) (l : List α) :
    ((l.map f).flatten).length = 2 * l.length := by
  induction l with
  | nil => simp
  | cons a t ih => simp [hf, ih]; omega

theorem length_condPushes (sym : List Nat → Int) (addrOf : Nat → Int)
    (conds : List Condition) :
    (condPushes sym addrOf conds).length = 2 + 4 * conds.length := by
  unfold condPushes
  rw [List.length_append, List.length_cons, List.length_cons,
    length_flatten_of_pair (condHeadWords sym) (fun c => rfl) conds,
    length_flatten_of_pair (condArgWords addrOf) (fun p => rfl) conds.enum,
    List.enum_length]
  omega

theorem length_read_table_pushes (sym : List Nat → Int) (addrOf : Nat → Int)
    (tableName : List Nat) (columns : List (List Nat))
    (conditions : Option (List Condition)) :
    (read_table_pushes sym addrOf tableName columns conditions).length =
      2 + columns.length +
        (match conditions with
         | none => 0
         | some conds => 2 + 4 * conds.length) := by
  unfold read_table_pushes push_head
  cases conditions with
  | none => simp; omega
  | some conds =>
    simp [length_condPushes]
    omega

/-! ## `TableQueryWrapper` (database.rs 215–300) -/

/-- The action fixed at construction (database.rs 215–219). -/
inductive Action
  | Read
  | Update
  deriving DecidableEq, Repr

/-- The condition builder (database.rs 222–234). -/
structure TableQueryWrapper where
  conditions : List Condition
  action : Action
  deriving DecidableEq, Repr

/-- `TableQueryWrapper::new` starts from an empty condition list. -/
def TableQueryWrapper.new (action : Action) : TableQueryWrapper :=
  { conditions := [], action := action }

/-- `column_equal_to_xdr` (database.rs 238–244): append one equality
condition whose operand is the argument's XDR encoding (the external
ledger codec is byte-opaque here, so the encoded bytes are taken as
input). -/
def TableQueryWrapper.column_equal_to_xdr (w : TableQueryWrapper)
    (column : List Nat) (xdrBytes : List Nat) : TableQueryWrapper :=
  { w with conditions := w.conditions ++ [.ColumnEqualTo column xdrBytes] }

/-- `column_equal_to_bytes` (database.rs 251–256): append one equality
condition with caller-serialized bytes. -/
def TableQueryWrapper.column_equal_to_bytes (w : TableQueryWrapper)
    (column : List Nat) (bytes : List Nat) : TableQueryWrapper :=
  { w with conditions := w.conditions ++ [.ColumnEqualTo column bytes] }

/-- `column_equal_to` (database.rs 263–278): the argument is first
converted into a `ZephyrVal` and bincode-serialized. -/
def TableQueryWrapper.column_equal_to (w : TableQueryWrapper)
    (column : List Nat) (argument : ZephyrVal) : TableQueryWrapper :=
  { w with conditions :=
      w.conditions ++ [.ColumnEqualTo column (bincodeSerializeZephyrVal argument)] }

/-- `TableQueryWrapper::execute` (database.rs 282–288): on a wrapper
whose action is not `Update` it returns `ReadOnUpdateAction` before any
database call; otherwise it runs `interact.update` with the accumulated
conditions — the performed update is modelled by returning those
conditions. -/
def TableQueryWrapper.execute (w : TableQueryWrapper) :
    Except SdkError (List Condition) :=
  if w.action ≠ Action.Update then .error .ReadOnUpdateAction
  else .ok w.conditions

/-- `TableQueryWrapper::read` (database.rs 291–299): on a wrapper whose
action is not `Read` it returns `UpdateOnReadAction` before any
database call; otherwise it runs `T::read_to_rows` with the accumulated
conditions — the performed read is modelled by returning those
conditions. -/
def TableQueryWrapper.read (w : TableQueryWrapper) :
    Except SdkError (List Condition) :=
  if w.action ≠ Action.Read then .error .UpdateOnReadAction
  else .ok w.conditions

/-! ## `TypeWrap` accessors and `to_fixed` -/

/-- Translation of `to_fixed::<T, N>` (`zephyr-sdk/src/lib.rs` 77–80):
converting a vector into an `N`-element array succeeds exactly at
length `N`; `none` models the explicit length panic. -/
def to_fixed (N : Nat) (v : List Nat) : Option (List Nat) :=
  if v.length = N then some v else none

/-- `TypeWrap::to_i128` (database.rs 14–17): `i128::from_be_bytes` of
the 16 wrapped bytes. -/
def TypeWrap.to_i128 (t : TypeWrap) : Option Int :=
  match to_fixed 16 t.bytes with
  | some bs => some (toSigned 128 (beBytesToNat bs))
  | none => none

/-- `TypeWrap::to_u64` (database.rs 19–22): `u64::from_be_bytes` of the
8 wrapped bytes. -/
def TypeWrap.to_u64 (t : TypeWrap) : Option Nat :=
  match to_fixed 8 t.bytes with
  | some bs => some (beBytesToNat bs)
  | none => none

/-! ## `ZephyrVal` to inner-type conversions

The `impl_inner_from_deserialize_numeric!` macro
(`zephyr-common/src/lib.rs` 142–159) generates, for each of the five
integer targets (`i128`, `i64`, `u64`, `u32`, `i32`), one `From`
impl accepting any of the five integer variants with a Rust `as` cast;
every remaining variant hits the
`panic!("Attempted to convert ZephyrVal variant to different inner
type")` arm, modelled as `none`.  The macro body is uniform in the
target, so it is embedded once, parametric in the target's width and
signedness. -/

def zephyrValToNumeric (w : Nat) (signed : Bool) : ZephyrVal → Option Int
  | .I128 num => some (intCast w signed num)
  | .I32 num => some (intCast w signed num)
  | .I64 num => some (intCast w signed num)
  | .U32 num => some (intCast w signed (num : Int))
  | .U64 num => some (intCast w signed (num : Int))
  | _ => none

/-- The `impl_inner_from_deserialize_generic!` instance for `String`
(lib.rs 129–140 and 178): exact variant match or panic. -/
def zephyrValToString : ZephyrVal → Option (List Nat)
  | .String s => some s
  | _ => none

/-- The generic instance for `Vec<u8>` (lib.rs 179). -/
def zephyrValToBytes : ZephyrVal → Option (List Nat)
  | .Bytes b => some b
  | _ => none

/-- The generic instance for `f64` (lib.rs 180); the payload is the bit
pattern. -/
def zephyrValToF64 : ZephyrVal → Option Nat
  | .F64 b => some b
  | _ => none

/-- The generic instance for `f32` (lib.rs 181). -/
def zephyrValToF32 : ZephyrVal → Option Nat
  | .F32 b => some b
  | _ => none

/-! ## Ledger-close meta reader (`zephyr-sdk/src/ledger_meta.rs`)

The decoded `LedgerCloseMeta` snapshot, shallowly.  Transaction
envelopes (`ε`), ledger entries (`E`) and ledger keys (`K`) are opaque
type parameters: the reader never inspects them beyond cloning, except
for the transaction hash.  `txhash_by_transaction` (ledger_meta.rs
43–65) involves SHA-256 and a host call for the network id, and it
panics (`_ => panic!()`, ledger_meta.rs 53) on any envelope that is
neither `Tx` nor `TxFeeBump`; it is abstracted as a partial function
`txhash : ε → Option (List Nat)`, with `none` standing for that panic.
In the V1 generalized transaction set, each phase
(`TransactionPhase::V0`) is its component list and each component
(`TxsetCompTxsMaybeDiscountedFee`) its envelope list, so the set is a
`List (List (List ε))`.  `TransactionResultMeta` keeps the fields the
reader consumes: the result's transaction hash, the result code
(collapsed to the three classes the reader distinguishes), and the
apply-processing meta. -/

/-- Result classes distinguished at ledger_meta.rs 183–187. -/
inductive TransactionResultCode
  | TxSuccess
  | TxFeeBumpInnerSuccess
  | Other
  deriving DecidableEq, Repr

/-- One ledger-entry change (`LedgerEntryChange`), ledger_meta.rs
196–209. -/
inductive LedgerEntryChange (E K : Type)
  | State (e : E)
  | Created (e : E)
  | Updated (e : E)
  | Removed (k : K)
  deriving DecidableEq, Repr

/-- The transaction apply meta: `V3` carries per-operation change
lists (`meta.operations[i].changes`); every other version is collapsed
into `Other`, which the reader ignores (the `_ => ()` arms). -/
inductive TransactionMeta (E K : Type)
  | V3 (operations : List (List (LedgerEntryChange E K)))
  | Other
  deriving DecidableEq, Repr

/-- The slice of `TransactionResultMeta` the reader consumes. -/
structure TransactionResultMeta (E K : Type) where
  transactionHash : List Nat
  resultCode : TransactionResultCode
  txApplyProcessing : TransactionMeta E K
  deriving DecidableEq, Repr

/-- Ledger header fields read by the reader: sequence and close time. -/
structure LedgerHeader where
  ledgerSeq : Nat
  closeTime : Nat
  deriving DecidableEq, Repr

/-- The two `LedgerCloseMeta` versions as the reader sees them: V0 with
a flat envelope list, V1 with the generalized nested set. -/
inductive LedgerCloseMeta (ε E K : Type)
  | V0 (header : LedgerHeader) (txs : List ε)
      (txProcessing : List (TransactionResultMeta E K))
  | V1 (header : LedgerHeader) (phases : List (List (List ε)))
      (txProcessing : List (TransactionResultMeta E K))
  deriving DecidableEq, Repr

variable {ε E K : Type}

/-- `MetaReader::ledger_sequence` (ledger_meta.rs 67–72). -/
def ledger_sequence : LedgerCloseMeta ε E K → Nat
  | .V0 h _ _ => h.ledgerSeq
  | .V1 h _ _ => h.ledgerSeq

/-- `MetaReader::ledger_timestamp` (ledger_meta.rs 74–79). -/
def ledger_timestamp : LedgerCloseMeta ε E K → Nat
  | .V0 h _ _ => h.closeTime
  | .V1 h _ _ => h.closeTime

/-- `MetaReader::tx_processing` (ledger_meta.rs 165–170). -/
def tx_processing : LedgerCloseMeta ε E K → List (TransactionResultMeta E K)
  | .V0 _ _ p => p
  | .V1 _ _ p => p

/-- `MetaReader::envelopes` (ledger_meta.rs 83–114): V0 returns the
flat set; V1 flattens phases, then components, preserving order. -/
def envelopes : LedgerCloseMeta ε E K → List ε
  | .V0 _ txs _ => txs
  | .V1 _ phases _ => (phases.map List.flatten).flatten

/-- The result-lookup loop at ledger_meta.rs 140–145: scan the whole
processing list, overwriting on every hash match (keeping the last). -/
def findMeta (processing : List (TransactionResultMeta E K))
    (h : List Nat) : Option (TransactionResultMeta E K) :=
  processing.foldl
    (fun acc meta => if meta.transactionHash = h then some meta else acc) none

/-- The per-component pairing loop (ledger_meta.rs 135–152): `idx` is
the `enumerate` counter inside one component.  Per envelope the code
first computes the hash (whose panic on a legacy envelope is the first
`none`), then scans the result stream, then evaluates
`tprocessing.unwrap_or(processing[idx].clone())` — Rust evaluates the
`unwrap_or` argument eagerly, so `processing[idx]` is indexed (and its
out-of-range panic, the second `none`, can fire) even when the hash
lookup succeeded. -/
def componentPairs (txhash : ε → Option (List Nat))
    (processing : List (TransactionResultMeta E K)) :
    Nat → List ε → Option (List (ε × TransactionResultMeta E K))
  | _, [] => some []
  | idx, tx :: rest =>
    match txhash tx with
    | none => none
    | some h =>
      match processing[idx]? with
      | none => none
      | some fallback =>
        match componentPairs txhash processing (idx + 1) rest with
        | some l =>
          some ((tx, (match findMeta processing h with
                      | some m => m
                      | none => fallback)) :: l)
        | none => none

/-- Sequencing of the component loop across the flattened phase and
component structure. -/
def allComponentPairs (txhash : ε → Option (List Nat))
    (processing : List (TransactionResultMeta E K)) :
    List (List ε) → Option (List (ε × TransactionResultMeta E K))
  | [] => some []
  | comp :: rest =>
    match componentPairs txhash processing 0 comp,
        allComponentPairs txhash processing rest with
    | some l, some l2 => some (l ++ l2)
    | _, _ => none

/-- `MetaReader::envelopes_with_meta` (ledger_meta.rs 116–163).  The V0
arm is the explicit `() // todo`: an empty result, not an error. -/
def envelopes_with_meta (txhash : ε → Option (List Nat)) :
    LedgerCloseMeta ε E K → Option (List (ε × TransactionResultMeta E K))
  | .V0 _ _ _ => some []
  | .V1 _ phases processing =>
      allComponentPairs txhash processing phases.flatten

/-- The four entry-change partitions (ledger_meta.rs 14–21). -/
structure EntryChanges (E K : Type) where
  state : List E
  removed : List K
  updated : List E
  created : List E
  deriving DecidableEq, Repr

/-- Flattened change stream of one result meta: the nested
per-operation loops at ledger_meta.rs 238–262 visit `V3` operations'
changes in order and skip every other meta version. -/
def metaChanges : TransactionMeta E K → List (LedgerEntryChange E K)
  | .V3 ops => ops.flatten
  | .Other => []

/-- Partition a change stream in visit order (the four `push` arms). -/
def partitionChanges (changes : List (LedgerEntryChange E K)) :
    EntryChanges E K where
  state := changes.filterMap fun c =>
    match c with | .State e => some e | _ => none
  removed := changes.filterMap fun c =>
    match c with | .Removed k => some k | _ => none
  updated := changes.filterMap fun c =>
    match c with | .Updated e => some e | _ => none
  created := changes.filterMap fun c =>
    match c with | .Created e => some e | _ => none

/-- `MetaReader::v1_ledger_entries` (ledger_meta.rs 228–273): V0 yields
the four empty partitions. -/
def v1_ledger_entries : LedgerCloseMeta ε E K → EntryChanges E K
  | .V0 _ _ _ => partitionChanges []
  | .V1 _ _ processing =>
      partitionChanges
        ((processing.map fun tp => metaChanges tp.txApplyProcessing).flatten)

/-- Success test at ledger_meta.rs 182–187. -/
def isSuccess : TransactionResultCode → Bool
  | .TxSuccess => true
  | .TxFeeBumpInnerSuccess => true
  | .Other => false

/-- `MetaReader::v1_success_ledger_entries` (ledger_meta.rs 172–226):
as `v1_ledger_entries` but only over successful transactions. -/
def v1_success_ledger_entries : LedgerCloseMeta ε E K → EntryChanges E K
  | .V0 _ _ _ => partitionChanges []
  | .V1 _ _ processing =>
      partitionChanges
        ((processing.map fun tp =>
          if isSuccess tp.resultCode then metaChanges tp.txApplyProcessing
          else []).flatten)

theorem componentPairs_spec (txhash : ε → Option (List Nat))
    (processing : List (TransactionResultMeta E K)) (comp : List ε) :
    ∀ idx : Nat, idx + comp.length ≤ processing.length →
    (∀ tx ∈ comp, (txhash tx).isSome = true) →
    ∃ l, componentPairs txhash processing idx comp = some l ∧
      l.map Prod.fst = comp ∧ l.length = comp.length := by
  induction comp with
  | nil => intro idx _ _; exact ⟨[], rfl, rfl, rfl⟩
  | cons tx rest ih =>
    intro idx hle htx
    simp only [List.length_cons] at hle
    obtain ⟨l, hl, hfst, hlen⟩ := ih (idx + 1) (by omega)
      (fun t ht => htx t (List.mem_cons_of_mem _ ht))
    obtain ⟨h, hh⟩ :=
      Option.isSome_iff_exists.mp (htx tx (List.mem_cons_self tx rest))
    have hidx : idx < processing.length := by omega
    have hfb : processing[idx]? = some processing[idx] :=
      List.getElem?_eq_getElem hidx
    refine ⟨(tx, (match findMeta processing h with
                  | some m => m
                  | none => processing[idx])) :: l,
      ?_, by simp [hfst], by simp [hlen]⟩
    simp only [componentPairs, hh, hfb, hl]

theorem allComponentPairs_spec (txhash : ε → Option (List Nat))
    (processing : List (TransactionResultMeta E K)) :
    ∀ comps : List (List ε), (∀ c ∈ comps, c.length ≤ processing.length) →
    (∀ c ∈ comps, ∀ tx ∈ c, (txhash tx).isSome = true) →
    ∃ l, allComponentPairs txhash processing comps = some l ∧
      l.map Prod.fst = comps.flatten ∧ l.length = comps.flatten.length := by
  intro comps
  induction comps with
  | nil => intro _ _; exact ⟨[], rfl, rfl, rfl⟩
  | cons comp rest ih =>
    intro hwf htx
    obtain ⟨l1, h1, hf1, hl1⟩ :=
      componentPairs_spec txhash processing comp 0
        (by simpa using hwf comp (List.mem_cons_self comp rest))
        (htx comp (List.mem_cons_self comp rest))
    obtain ⟨l2, h2, hf2, hl2⟩ :=
      ih (fun c hc => hwf c (List.mem_cons_of_mem _ hc))
        (fun c hc => htx c (List.mem_cons_of_mem _ hc))
    refine ⟨l1 ++ l2, ?_, by simp [hf1, hf2], by simp [hl1, hl2]⟩
    simp only [allComponentPairs, h1, h2]

theorem flatten_map_flatten {α : Type} (l : List (List (List α))) :
    (l.map List.flatten).flatten = l.flatten.flatten := by
  induction l with
  | nil => rfl
  | cons a t ih => simp [ih]

/-! ## Further helper lemmas -/

theorem foldl_column_equal_to_bytes (ps : List (List Nat × List Nat)) :
    ∀ w : TableQueryWrapper,
      (ps.foldl (fun acc p => acc.column_equal_to_bytes p.1 p.2) w).conditions =
        w.conditions ++ ps.map (fun p => Condition.ColumnEqualTo p.1 p.2) ∧
      (ps.foldl (fun acc p => acc.column_equal_to_bytes p.1 p.2) w).action =
        w.action := by
  induction ps with
  | nil => intro w; simp
  | cons p t ih =>
    intro w
    have h2 := ih (w.column_equal_to_bytes p.1 p.2)
    simp only [List.foldl_cons, List.map_cons]
    constructor
    · rw [h2.1]; simp [TableQueryWrapper.column_equal_to_bytes]
    · rw [h2.2]; rfl

/-! ## The claims -/

/-- Claim C1: for every well-formed `ZephyrVal` (signed/unsigned
integers of widths 32/64/128, 32/64-bit floats as bit patterns, UTF-8
text, byte sequences), decoding the compact binary (bincode) encoding
yields the value back: `decode(encode(v)) == v`. -/
theorem claim_C1_zephyrval_roundtrip (v : ZephyrVal) (h : v.wf = true) :
    bincodeDeserializeZephyrVal (bincodeSerializeZephyrVal v) = some (v, []) :=
  zephyrVal_roundtrip v h

theorem claim_C1_zephyrval_roundtrip_witness :
    bincodeDeserializeZephyrVal
        (bincodeSerializeZephyrVal (ZephyrVal.String [104, 105])) =
      some (ZephyrVal.String [104, 105], []) :=
  claim_C1_zephyrval_roundtrip (ZephyrVal.String [104, 105]) (by decide)

/-- Claim C2 (counterexample): the claim says every status code `>= 6`
panics, but `express_from_status` takes an `i64` and truncates it with
`as u32` first: the code `2^32 + 1` is `>= 6` yet reports success. -/
theorem claim_C2_counterexample :
    (6 : Int) ≤ 2 ^ 32 + 1 ∧
      express_from_status (2 ^ 32 + 1) = some (.ok ()) := by
  refine ⟨by norm_num, ?_⟩
  decide

/-- Claim C2 (amended): `express_from_status` maps code 1 to `Ok(())`,
codes 2/3/4/5 one-to-one to the distinct errors DbWrite, DbRead,
NoValOnStack, HostConfiguration, and code 0 to the Unknown error (a
failure); every code whose value lies in `[6, 2^32)` panics.  Codes
outside `u32` range are first truncated to their low 32 bits by the
`as u32` cast (last conjunct), which is what bounds the panic law. -/
theorem claim_C2_amended :
    express_from_status 1 = some (.ok ()) ∧
    express_from_status 2 = some (.error .DbWrite) ∧
    express_from_status 3 = some (.error .DbRead) ∧
    express_from_status 4 = some (.error .NoValOnStack) ∧
    express_from_status 5 = some (.error .HostConfiguration) ∧
    List.Pairwise (· ≠ ·)
      [SdkError.DbWrite, SdkError.DbRead, SdkError.NoValOnStack,
        SdkError.HostConfiguration] ∧
    express_from_status 0 = some (.error .Unknown) ∧
    (∀ code : Int, 6 ≤ code → code < 2 ^ 32 →
      express_from_status code = none) ∧
    (∀ code : Int,
      express_from_status code = express_from_status (code % 2 ^ 32)) := by
  refine ⟨by decide, by decide, by decide, by decide, by decide, by decide,
    by decide, ?_, ?_⟩
  · intro code h6 hlt
    have h0 : (0 : Int) ≤ code := by omega
    unfold express_from_status
    rw [Int.emod_eq_of_lt h0 hlt,
      zephyrStatusFromU32_ge_six code.toNat (by omega)]
  · intro code
    unfold express_from_status
    rw [Int.emod_emod_of_dvd code dvd_rfl]

theorem claim_C2_amended_witness :
    express_from_status 6 = none ∧
    express_from_status 7 = express_from_status (7 % 2 ^ 32) :=
  ⟨claim_C2_amended.2.2.2.2.2.2.2.1 6 (by norm_num) (by norm_num),
   claim_C2_amended.2.2.2.2.2.2.2.2 7⟩

/-- Claim C3 (counterexample): with one column and no conditions the
push trace has length `3 = 2 + len(columns)`, not `2 + 2*len(columns) = 4`
as claimed: each column contributes one pushed word, not two. -/
theorem claim_C3_counterexample :
    (read_table_pushes (fun _ => 0) (fun _ => 0) [116] [[99]] none).length ≠
      2 + 2 * [[99]].length := by
  decide

/-- Claim C3 (amended): the push sequence issued by
`Database::read_table` has length exactly `2 + len(columns)` with no
conditions, and `2 + len(columns) + 2 + 4*len(conditions)` with a
condition list — a deterministic function of the input sizes alone. -/
theorem claim_C3_amended (sym : List Nat → Int) (addrOf : Nat → Int)
    (tableName : List Nat) (columns : List (List Nat))
    (conditions : Option (List Condition)) :
    (read_table_pushes sym addrOf tableName columns conditions).length =
      2 + columns.length +
        (match conditions with
         | none => 0
         | some conds => 2 + 4 * conds.length) :=
  length_read_table_pushes sym addrOf tableName columns conditions

/-- Claim C4: a `TableQueryWrapper` whose action is `Read` fails
`execute` with `ReadOnUpdateAction` (before any database call); one
whose action is `Update` fails `read` with `UpdateOnReadAction`; no
builder operation changes the action fixed by `new`. -/
theorem claim_C4_action_gating (w : TableQueryWrapper) :
    (w.action = Action.Read →
      w.execute = .error SdkError.ReadOnUpdateAction) ∧
    (w.action = Action.Update →
      w.read = .error SdkError.UpdateOnReadAction) ∧
    (∀ col bs, (w.column_equal_to_bytes col bs).action = w.action) ∧
    (∀ col xs, (w.column_equal_to_xdr col xs).action = w.action) ∧
    (∀ col v, (w.column_equal_to col v).action = w.action) ∧
    (TableQueryWrapper.new w.action).action = w.action := by
  refine ⟨?_, ?_, fun _ _ => rfl, fun _ _ => rfl, fun _ _ => rfl, rfl⟩
  · intro h
    simp [TableQueryWrapper.execute, h]
  · intro h
    simp [TableQueryWrapper.read, h]

theorem claim_C4_action_gating_witness :
    (TableQueryWrapper.new Action.Read).execute =
        .error SdkError.ReadOnUpdateAction ∧
    (TableQueryWrapper.new Action.Update).read =
        .error SdkError.UpdateOnReadAction :=
  ⟨(claim_C4_action_gating (TableQueryWrapper.new Action.Read)).1 rfl,
   (claim_C4_action_gating (TableQueryWrapper.new Action.Update)).2.1 rfl⟩

/-- Claim C5 (counterexample): a V0 (older-format) snapshot containing
one transaction, for which `envelopes_with_meta` returns zero pairs
(the V0 arm is `() // todo`), not one pair as the claim requires of
every snapshot. -/
theorem claim_C5_counterexample :
    envelopes_with_meta (fun _ => some ([] : List Nat))
        (LedgerCloseMeta.V0 (E := Nat) (K := Nat) ⟨1, 2⟩ [5]
          [⟨[], .Other, .Other⟩]) = some [] ∧
    (envelopes (LedgerCloseMeta.V0 (E := Nat) (K := Nat) ⟨1, 2⟩ [5]
          [⟨[], .Other, .Other⟩])).length = 1 :=
  ⟨rfl, rfl⟩

/-- Claim C5 (amended): on a V1 (generalized-format) snapshot all of
whose envelopes are of the hashable kinds (`Tx` or `TxFeeBump`, so
`txhash_by_transaction` does not panic) and whose components stay
within the result stream's length (so the eagerly indexed
`processing[idx]` fallback cannot panic), `envelopes_with_meta`
succeeds and returns exactly one pair per transaction of the set, the
envelope components being exactly `envelopes` in inclusion order. -/
theorem claim_C5_amended (ε E K : Type) (txhash : ε → Option (List Nat))
    (h : LedgerHeader) (phases : List (List (List ε)))
    (processing : List (TransactionResultMeta E K))
    (hwf : ∀ comp ∈ phases.flatten, comp.length ≤ processing.length)
    (htx : ∀ comp ∈ phases.flatten, ∀ tx ∈ comp, (txhash tx).isSome = true) :
    ∃ l, envelopes_with_meta txhash (LedgerCloseMeta.V1 h phases processing) =
        some l ∧
      l.map Prod.fst = envelopes (LedgerCloseMeta.V1 h phases processing) ∧
      l.length = (envelopes (LedgerCloseMeta.V1 h phases processing)).length := by
  obtain ⟨l, hsome, hfst, hlen⟩ :=
    allComponentPairs_spec txhash processing phases.flatten hwf htx
  refine ⟨l, hsome, ?_, ?_⟩
  · rw [hfst]
    show phases.flatten.flatten = envelopes (LedgerCloseMeta.V1 h phases processing)
    rw [show envelopes (LedgerCloseMeta.V1 h phases processing) =
      (phases.map List.flatten).flatten from rfl, flatten_map_flatten]
  · rw [hlen]
    show phases.flatten.flatten.length = _
    rw [show envelopes (LedgerCloseMeta.V1 h phases processing) =
      (phases.map List.flatten).flatten from rfl, flatten_map_flatten]

theorem claim_C5_amended_witness :
    ∃ l, envelopes_with_meta (fun _ => some ([] : List Nat))
        (LedgerCloseMeta.V1 (ε := Nat) (E := Nat) (K := Nat) ⟨1, 2⟩ [[[7]]]
          [⟨[], .Other, .Other⟩]) = some l ∧
      l.map Prod.fst = envelopes (LedgerCloseMeta.V1 (ε := Nat) (E := Nat)
        (K := Nat) ⟨1, 2⟩ [[[7]]] [⟨[], .Other, .Other⟩]) ∧
      l.length = (envelopes (LedgerCloseMeta.V1 (ε := Nat) (E := Nat)
        (K := Nat) ⟨1, 2⟩ [[[7]]] [⟨[], .Other, .Other⟩])).length :=
  claim_C5_amended Nat Nat Nat (fun _ => some []) ⟨1, 2⟩ [[[7]]]
    [⟨[], .Other, .Other⟩] (by decide) (by decide)

/-- Claim C6: on a V0 (older-format) snapshot, `ledger_sequence`,
`ledger_timestamp` and `tx_processing` return the header sequence,
close time and per-transaction results, while entry-change extraction
and `envelopes_with_meta` return empty partitions / the empty list,
not an error. -/
theorem claim_C6_v0_support (ε E K : Type) (txhash : ε → Option (List Nat))
    (h : LedgerHeader) (txs : List ε)
    (p : List (TransactionResultMeta E K)) :
    ledger_sequence (LedgerCloseMeta.V0 h txs p) = h.ledgerSeq ∧
    ledger_timestamp (LedgerCloseMeta.V0 h txs p) = h.closeTime ∧
    tx_processing (LedgerCloseMeta.V0 h txs p) = p ∧
    v1_ledger_entries (LedgerCloseMeta.V0 h txs p) =
      EntryChanges.mk [] [] [] [] ∧
    v1_success_ledger_entries (LedgerCloseMeta.V0 h txs p) =
      EntryChanges.mk [] [] [] [] ∧
    envelopes_with_meta txhash (LedgerCloseMeta.V0 h txs p) = some [] :=
  ⟨rfl, rfl, rfl, rfl, rfl, rfl⟩

/-- Claim C7 (counterexample): the numeric `From<ZephyrVal>` impls cast
with `as`, so a narrowing conversion succeeds silently with a changed
value: converting `I128(2^32)` to `i32` yields `0`, not a panic. -/
theorem claim_C7_counterexample :
    zephyrValToNumeric 32 true (ZephyrVal.I128 (2 ^ 32)) = some 0 ∧
      (2 ^ 32 : Int) ≠ 0 := by
  refine ⟨?_, by norm_num⟩
  decide

/-- Claim C7 (amended): converting a `ZephyrVal` to a native integer
type accepts any of the five integer variants with Rust `as`-cast
(truncate/wrap) semantics — value-preserving exactly when the value
fits the target (so all widenings preserve values, but narrowings
silently wrap) — and panics on the float, text and byte variants;
conversions to `f64`/`f32`/`String`/`Vec<u8>` succeed only on the
exactly matching variant and panic otherwise. -/
theorem claim_C7_amended (w : Nat) (signed : Bool) :
    (∀ v : Int, zephyrValToNumeric w signed (.I128 v) =
      some (intCast w signed v)) ∧
    (∀ v : Int, zephyrValToNumeric w signed (.I64 v) =
      some (intCast w signed v)) ∧
    (∀ v : Int, zephyrValToNumeric w signed (.I32 v) =
      some (intCast w signed v)) ∧
    (∀ v : Nat, zephyrValToNumeric w signed (.U64 v) =
      some (intCast w signed v)) ∧
    (∀ v : Nat, zephyrValToNumeric w signed (.U32 v) =
      some (intCast w signed v)) ∧
    (∀ b : Nat, zephyrValToNumeric w signed (.F64 b) = none) ∧
    (∀ b : Nat, zephyrValToNumeric w signed (.F32 b) = none) ∧
    (∀ s : List Nat, zephyrValToNumeric w signed (.String s) = none) ∧
    (∀ bs : List Nat, zephyrValToNumeric w signed (.Bytes bs) = none) ∧
    (∀ (v : ZephyrVal) (s : List Nat),
      zephyrValToString v = some s ↔ v = .String s) ∧
    (∀ (v : ZephyrVal) (bs : List Nat),
      zephyrValToBytes v = some bs ↔ v = .Bytes bs) ∧
    (∀ (v : ZephyrVal) (b : Nat), zephyrValToF64 v = some b ↔ v = .F64 b) ∧
    (∀ (v : ZephyrVal) (b : Nat), zephyrValToF32 v = some b ↔ v = .F32 b) ∧
    (1 ≤ w → signed = true → ∀ v : Int,
      -(2 ^ (w - 1)) ≤ v → v < 2 ^ (w - 1) → intCast w signed v = v) ∧
    (signed = false → ∀ v : Int, 0 ≤ v → v < 2 ^ w → intCast w signed v = v) := by
  refine ⟨fun _ => rfl, fun _ => rfl, fun _ => rfl, fun _ => rfl, fun _ => rfl,
    fun _ => rfl, fun _ => rfl, fun _ => rfl, fun _ => rfl,
    ?_, ?_, ?_, ?_, ?_, ?_⟩
  · intro v s; cases v <;> simp [zephyrValToString]
  · intro v bs; cases v <;> simp [zephyrValToBytes]
  · intro v b; cases v <;> simp [zephyrValToF64]
  · intro v b; cases v <;> simp [zephyrValToF32]
  · intro hw hs v hlo hhi
    subst hs
    simpa [intCast] using toSigned_intTrunc w hw v hlo hhi
  · intro hs v h0 h1
    subst hs
    simp only [intCast, if_neg Bool.false_ne_true]
    rw [Int.emod_eq_of_lt h0 h1, Int.toNat_of_nonneg h0]

theorem claim_C7_amended_witness :
    zephyrValToString (ZephyrVal.Bytes [1]) = some [1] ↔
      ZephyrVal.Bytes [1] = ZephyrVal.String [1] :=
  (claim_C7_amended 32 true).2.2.2.2.2.2.2.2.2.1 (ZephyrVal.Bytes [1]) [1]

/-- Claim C8: when the host read reports Success but the returned
buffer fails to deserialize as `TableRows`, `read_table` returns the
recoverable `Err(Conversion)` (no panic); when it deserializes, the
decoded `TableRows` is returned in `Ok`. -/
theorem claim_C8_conversion_error (status : Int) (buffer : List Nat)
    (h : status = 1) :
    (bincodeDeserializeTableRows buffer = none →
      read_table_from_host status buffer =
        some (.error SdkError.Conversion)) ∧
    (∀ t r, bincodeDeserializeTableRows buffer = some (t, r) →
      read_table_from_host status buffer = some (.ok t)) := by
  subst h
  have he : express_from_status 1 = some (.ok ()) := by decide
  constructor
  · intro hd
    unfold read_table_from_host
    rw [he, hd]
  · intro t r hd
    unfold read_table_from_host
    rw [he, hd]

theorem claim_C8_conversion_error_witness :
    read_table_from_host 1 [] = some (.error SdkError.Conversion) ∧
    read_table_from_host 1 [0, 0, 0, 0, 0, 0, 0, 0] =
      some (.ok (TableRows.mk [])) :=
  ⟨(claim_C8_conversion_error 1 [] rfl).1 (by decide),
   (claim_C8_conversion_error 1 [0, 0, 0, 0, 0, 0, 0, 0] rfl).2
     (TableRows.mk []) [] (by decide)⟩

/-- Claim C9: each `column_equal_to*` call appends exactly one
`ColumnEqualTo` condition at the end, preserving all previous
conditions, their order and the action; after `k` calls the list holds
exactly the `k` conditions in call order; and the operator word pushed
to the wire for any condition is `0` (equality). -/
theorem claim_C9_condition_append (w : TableQueryWrapper)
    (col bs xs : List Nat) (v : ZephyrVal) :
    (w.column_equal_to_bytes col bs).conditions =
      w.conditions ++ [Condition.ColumnEqualTo col bs] ∧
    (w.column_equal_to_xdr col xs).conditions =
      w.conditions ++ [Condition.ColumnEqualTo col xs] ∧
    (w.column_equal_to col v).conditions =
      w.conditions ++
        [Condition.ColumnEqualTo col (bincodeSerializeZephyrVal v)] ∧
    (∀ ps : List (List Nat × List Nat),
      (ps.foldl (fun acc p => acc.column_equal_to_bytes p.1 p.2) w).conditions =
        w.conditions ++ ps.map (fun p => Condition.ColumnEqualTo p.1 p.2) ∧
      (ps.foldl (fun acc p => acc.column_equal_to_bytes p.1 p.2) w).action =
        w.action) ∧
    (∀ (sym : List Nat → Int) (c : Condition),
      condHeadWords sym c = [sym c.column, 0]) := by
  refine ⟨rfl, rfl, rfl, fun ps => foldl_column_equal_to_bytes ps w, ?_⟩
  intro sym c
  cases c
  rfl

/-- Claim C10: `TypeWrap::to_i128` returns the big-endian (two's
complement) interpretation of the wrapped bytes exactly when there are
16 of them and panics otherwise; `to_u64` likewise at length 8. -/
theorem claim_C10_typewrap_lengths (t : TypeWrap) :
    (t.bytes.length = 16 →
      t.to_i128 = some (toSigned 128 (beBytesToNat t.bytes))) ∧
    (t.bytes.length ≠ 16 → t.to_i128 = none) ∧
    (t.bytes.length = 8 → t.to_u64 = some (beBytesToNat t.bytes)) ∧
    (t.bytes.length ≠ 8 → t.to_u64 = none) := by
  refine ⟨?_, ?_, ?_, ?_⟩ <;> intro h <;>
    simp [TypeWrap.to_i128, TypeWrap.to_u64, to_fixed, h]

theorem claim_C10_typewrap_lengths_witness :
    TypeWrap.to_i128 ⟨List.replicate 16 0⟩ =
      some (toSigned 128 (beBytesToNat (List.replicate 16 0))) ∧
    TypeWrap.to_u64 ⟨[1, 2, 3]⟩ = none :=
  ⟨(claim_C10_typewrap_lengths ⟨List.replicate 16 0⟩).1 (by decide),
   (claim_C10_typewrap_lengths ⟨[1, 2, 3]⟩).2.2.2 (by decide)⟩

end Zephyr
